import Mathlib

/-!
Shallow embedding of the `tabwriter` crate (src/lib.rs): an elastic-tabstops
aligner.  Bytes are modelled as `Nat`, the growable byte buffer as `List Nat`,
and the wrapped writer as an explicit `Sink` that can be configured to fail
after a given number of write calls.  All definitions are executable.
-/

set_option maxRecDepth 4000

/-- One tab/newline-delimited field: `start`/`size` index the backing buffer,
`width` is the computed display width (`struct Cell` in src/lib.rs). -/
structure Cell where
  start : Nat
  width : Nat
  size : Nat
deriving Repr, DecidableEq

/-- `Cell::new`: a fresh cell beginning at offset `start`. -/
def Cell.new (start : Nat) : Cell :=
  { start := start, width := 0, size := 0 }

/-- `buf.slice(a, b)` on a byte buffer: the bytes at indices `[a, b)`. -/
def listSlice (l : List Nat) (a b : Nat) : List Nat :=
  (l.take b).drop a

/-- UTF-8 decoding of a byte sequence into its scalar values, `none` on
invalid input.  This models `str::from_utf8` (accepting exactly the wellformed
encodings: no overlong forms, no surrogates, maximum U+10FFFF). -/
def utf8Decode : List Nat → Option (List Nat)
  | [] => some []
  | b :: rest =>
    if b < 0x80 then (utf8Decode rest).map (fun cps => b :: cps)
    else if b < 0xC2 then none
    else if b < 0xE0 then
      match rest with
      | b1 :: rest2 =>
        if 0x80 ≤ b1 ∧ b1 < 0xC0 then
          (utf8Decode rest2).map (fun cps => ((b - 0xC0) * 0x40 + (b1 - 0x80)) :: cps)
        else none
      | [] => none
    else if b < 0xF0 then
      match rest with
      | b1 :: b2 :: rest2 =>
        if (0x80 ≤ b1 ∧ b1 < 0xC0) ∧ (0x80 ≤ b2 ∧ b2 < 0xC0) then
          let cp := (b - 0xE0) * 0x1000 + (b1 - 0x80) * 0x40 + (b2 - 0x80)
          if cp < 0x800 then none
          else if 0xD800 ≤ cp ∧ cp < 0xE000 then none
          else (utf8Decode rest2).map (fun cps => cp :: cps)
        else none
      | _ => none
    else if b < 0xF5 then
      match rest with
      | b1 :: b2 :: b3 :: rest2 =>
        if (0x80 ≤ b1 ∧ b1 < 0xC0) ∧ (0x80 ≤ b2 ∧ b2 < 0xC0) ∧ (0x80 ≤ b3 ∧ b3 < 0xC0) then
          let cp := (b - 0xF0) * 0x40000 + (b1 - 0x80) * 0x1000 + (b2 - 0x80) * 0x40 + (b3 - 0x80)
          if cp < 0x10000 then none
          else if 0x10FFFF < cp then none
          else (utf8Decode rest2).map (fun cps => cp :: cps)
        else none
      | _ => none
    else none

/-- Modelled from the spec: codepoints classified as contributing zero display
columns (control and combining codepoints).  The full Unicode table behind
`char::width` is external data; it is abbreviated here to representative
ranges (C0/C1 controls, combining diacritics, zero-width format characters,
variation selectors, combining marks for symbols). -/
def isZeroWidthCp (c : Nat) : Bool :=
  decide (c < 0x20) || decide (0x7F ≤ c ∧ c < 0xA0) ||
  decide (0x300 ≤ c ∧ c ≤ 0x36F) || decide (0x483 ≤ c ∧ c ≤ 0x489) ||
  decide (0x200B ≤ c ∧ c ≤ 0x200F) || decide (0x20D0 ≤ c ∧ c ≤ 0x20FF) ||
  decide (0xFE00 ≤ c ∧ c ≤ 0xFE0F)

/-- Modelled from the spec: codepoints classified as wide (two display
columns).  Abbreviated to the main East-Asian wide/fullwidth ranges. -/
def isWideCp (c : Nat) : Bool :=
  decide (0x1100 ≤ c ∧ c ≤ 0x115F) || decide (0x2E80 ≤ c ∧ c ≤ 0xA4CF) ||
  decide (0xAC00 ≤ c ∧ c ≤ 0xD7A3) || decide (0xF900 ≤ c ∧ c ≤ 0xFAFF) ||
  decide (0xFE30 ≤ c ∧ c ≤ 0xFE4F) || decide (0xFF00 ≤ c ∧ c ≤ 0xFF60) ||
  decide (0xFFE0 ≤ c ∧ c ≤ 0xFFE6) || decide (0x20000 ≤ c ∧ c ≤ 0x3FFFD)

/-- Display-column contribution of one codepoint (`c.width(false).unwrap_or(0)`):
0 for control/combining codepoints, 2 for wide codepoints, 1 otherwise. -/
def charWidth (c : Nat) : Nat :=
  if isZeroWidthCp c then 0 else if isWideCp c then 2 else 1

/-- `display_columns` from src/lib.rs: byte length for invalid UTF-8,
otherwise the sum of the per-codepoint display widths. -/
def display_columns (bytes : List Nat) : Nat :=
  match utf8Decode bytes with
  | none => bytes.length
  | some cps => (cps.map charWidth).sum

/-- `Cell::update_width`: recompute `width` from the cell's byte range. -/
def Cell.update_width (c : Cell) (buf : List Nat) : Cell :=
  { c with width := display_columns (listSlice buf c.start (c.start + c.size)) }

/-- The `TabWriter` state (minus the wrapped writer, which is modelled
separately as a `Sink`). -/
structure TabWriter where
  buf : List Nat
  lines : List (List Cell)
  curcell : Cell
  minwidth : Nat
  padding : Nat
deriving Repr, DecidableEq

/-- `TabWriter::new`: empty buffer, one (empty) line, default
`minwidth = 2`, `padding = 2`. -/
def TabWriter.new : TabWriter :=
  { buf := [], lines := [[]], curcell := Cell.new 0, minwidth := 2, padding := 2 }

/-- The `minwidth` builder method. -/
def TabWriter.setMinwidth (tw : TabWriter) (m : Nat) : TabWriter :=
  { tw with minwidth := m }

/-- The `padding` builder method. -/
def TabWriter.setPadding (tw : TabWriter) (p : Nat) : TabWriter :=
  { tw with padding := p }

/-- `TabWriter::reset`: discard buffer, lines and in-progress cell. -/
def reset (tw : TabWriter) : TabWriter :=
  { tw with buf := [], lines := [[]], curcell := Cell.new 0 }

/-- `TabWriter::add_bytes`: append bytes to the buffer and grow the current
cell. -/
def add_bytes (tw : TabWriter) (bytes : List Nat) : TabWriter :=
  { tw with
    buf := tw.buf ++ bytes,
    curcell := { tw.curcell with size := tw.curcell.size + bytes.length } }

/-- Append a cell to the last line (`self.curline_mut().push(..)`). -/
def pushLast (lines : List (List Cell)) (c : Cell) : List (List Cell) :=
  lines.dropLast ++ [lines.getLastD [] ++ [c]]

/-- `TabWriter::curline`: the last line. -/
def curline (tw : TabWriter) : List Cell :=
  tw.lines.getLastD []

/-- `TabWriter::term_curcell`: close the in-progress cell (computing its
width), push it onto the current line, and start a fresh cell at the end of
the buffer. -/
def term_curcell (tw : TabWriter) : TabWriter :=
  { tw with
    curcell := Cell.new tw.buf.length,
    lines := pushLast tw.lines (Cell.update_width tw.curcell tw.buf) }

/-- The external sink wrapped by the `TabWriter`: collected output plus an
optional count of write calls that will still succeed (`none` = infallible). -/
structure Sink where
  out : List Nat
  failAfter : Option Nat
deriving Repr, DecidableEq

/-- One `Writer::write` call on the sink: appends the bytes and reports
success, or fails (writing nothing) once the budget is exhausted. -/
def sinkWrite (s : Sink) (bytes : List Nat) : Sink × Bool :=
  match s.failAfter with
  | none => ({ s with out := s.out ++ bytes }, true)
  | some 0 => (s, false)
  | some (n + 1) => ({ out := s.out ++ bytes, failAfter := some n }, true)

/- ----------------------------------------------------------------- -/
/- The width computation (`cell_widths` in src/lib.rs).               -/
/- ----------------------------------------------------------------- -/

/-- The inner run scan of `cell_widths`: starting from a suffix of the line
list, the number of consecutive lines that still have a cell strictly after
column `col` (`contig_count`). -/
def contigFrom (col : Nat) : List (List Cell) → Nat
  | [] => 0
  | line :: rest => if col + 1 < line.length then contigFrom col rest + 1 else 0

/-- The inner run scan of `cell_widths`: the running `max` of
`line[col].width` over that same run of lines. -/
def colMaxRun (col : Nat) : List (List Cell) → Nat
  | [] => 0
  | line :: rest =>
    if col + 1 < line.length then
      max (line.getD col (Cell.new 0)).width (colMaxRun col rest)
    else 0

/-- Indexed map (`ws[j].push(width)` for every `j` in the run
`[i, i + contig)` of `cell_widths`). -/
def mapIdxFrom (f : Nat → List Nat → List Nat) : Nat → List (List Nat) → List (List Nat)
  | _, [] => []
  | k, x :: xs => f k x :: mapIdxFrom f (k + 1) xs

/-- Push `width` onto every `ws[j]` with `i ≤ j < i + contig`. -/
def pushRun (ws : List (List Nat)) (i contig width : Nat) : List (List Nat) :=
  mapIdxFrom (fun j l => if i ≤ j ∧ j < i + contig then l ++ [width] else l) 0 ws

/-- One iteration of the `col` loop of `cell_widths`: compute the contiguous
run starting at line `i`, its width (`max(minwidth, ..)`), and push it onto
every line of the run. -/
def colStep (lines : List (List Cell)) (mw i col : Nat) (ws : List (List Nat)) :
    List (List Nat) :=
  pushRun ws i (contigFrom col (lines.drop i))
    (max mw (colMaxRun col (lines.drop i)))

/-- The `col` loop of `cell_widths` (fuel = number of remaining columns). -/
def colLoop (lines : List (List Cell)) (mw i : Nat) :
    Nat → Nat → List (List Nat) → List (List Nat)
  | 0, _, ws => ws
  | f + 1, col, ws => colLoop lines mw i f (col + 1) (colStep lines mw i col ws)

/-- One iteration of the outer line loop of `cell_widths`: skip empty lines,
otherwise run the `col` loop from the first unassigned column of line `i`
up to (excluding) the line's last cell. -/
def lineStep (lines : List (List Cell)) (mw i : Nat) (ws : List (List Nat)) :
    List (List Nat) :=
  if (lines.getD i []).length = 0 then ws
  else
    colLoop lines mw i ((lines.getD i []).length - 1 - (ws.getD i []).length)
      ((ws.getD i []).length) ws

/-- The outer line loop of `cell_widths` (fuel = number of remaining lines). -/
def cwOuter (lines : List (List Cell)) (mw : Nat) :
    Nat → Nat → List (List Nat) → List (List Nat)
  | 0, _, ws => ws
  | f + 1, i, ws => cwOuter lines mw f (i + 1) (lineStep lines mw i ws)

/-- `cell_widths` from src/lib.rs: the per-line sequences of assigned column
widths. -/
def cell_widths (lines : List (List Cell)) (minwidth : Nat) : List (List Nat) :=
  cwOuter lines minwidth lines.length 0 (List.replicate lines.length [])

/- ----------------------------------------------------------------- -/
/- Emission (`TabWriter::flush`).                                     -/
/- ----------------------------------------------------------------- -/

/-- `n` literal space characters (the borrow from the preallocated padding
string in `flush`). -/
def padBytes (n : Nat) : List Nat :=
  List.replicate n 32

/-- The per-cell emission loop of `flush`: write each cell's raw bytes, then
(when the cell has an assigned width) the padding spaces.  Stops with `false`
at the first failed sink write. -/
def emitCells (buf : List Nat) (padcfg : Nat) (ws : List Nat) :
    Nat → List Cell → Sink → Sink × Bool
  | _, [], s => (s, true)
  | i, cell :: rest, s =>
    let r1 := sinkWrite s (listSlice buf cell.start (cell.start + cell.size))
    if r1.2 then
      if ws.length ≤ i then emitCells buf padcfg ws (i + 1) rest r1.1
      else
        let r2 := sinkWrite r1.1 (padBytes (padcfg + ws.getD i 0 - cell.width))
        if r2.2 then emitCells buf padcfg ws (i + 1) rest r2.1
        else (r2.1, false)
    else (r1.1, false)

/-- The per-line emission loop of `flush`: a newline before every line but
the first, then the line's cells. -/
def emitLines (buf : List Nat) (padcfg : Nat) :
    Bool → List (List Cell × List Nat) → Sink → Sink × Bool
  | _, [], s => (s, true)
  | first, lw :: rest, s =>
    let r0 := if first then (s, true) else sinkWrite s [10]
    if r0.2 then
      let r1 := emitCells buf padcfg lw.2 0 lw.1 r0.1
      if r1.2 then emitLines buf padcfg false rest r1.1
      else (r1.1, false)
    else (r0.1, false)

/-- The `if self.curcell.size > 0 { self.term_curcell() }` prologue of
`flush`. -/
def term_pending (tw : TabWriter) : TabWriter :=
  if 0 < tw.curcell.size then term_curcell tw else tw

/-- `TabWriter::flush`: terminate the pending cell, compute all column
widths, emit every line to the sink, and reset on success.  On a sink
failure the unreset state is returned together with `false`. -/
def flush (tw : TabWriter) (s : Sink) : TabWriter × Sink × Bool :=
  let tw1 := term_pending tw
  let widths := cell_widths tw1.lines tw1.minwidth
  let r := emitLines tw1.buf tw1.padding true (tw1.lines.zip widths) s
  if r.2 then (reset tw1, r.1, true) else (tw1, r.1, false)

/-- `Writer::write` for `TabWriter`, processing the input byte by byte.
`pending` holds the bytes seen since the last terminator (the
`buf.slice(lastterm, i)` bookkeeping of the source).  A tab or newline
terminates the current cell; a newline also starts a new line and, when the
just-completed line has exactly one cell, triggers an immediate `flush`
whose failure aborts the call. -/
def writeAux : TabWriter → Sink → List Nat → List Nat → TabWriter × Sink × Bool
  | tw, s, pending, [] => (add_bytes tw pending, s, true)
  | tw, s, pending, c :: rest =>
    if c = 9 ∨ c = 10 then
      let tw1 := term_curcell (add_bytes tw pending)
      if c = 10 then
        let ncells := (curline tw1).length
        let tw2 := { tw1 with lines := tw1.lines ++ [[]] }
        if ncells = 1 then
          let r := flush tw2 s
          if r.2.2 then writeAux r.1 r.2.1 [] rest else r
        else writeAux tw2 s [] rest
      else writeAux tw1 s [] rest
    else writeAux tw s (pending ++ [c]) rest

/-- `consume`: feed raw bytes to the writer (`Writer::write`). -/
def consume (tw : TabWriter) (s : Sink) (bytes : List Nat) : TabWriter × Sink × Bool :=
  writeAux tw s [] bytes

/- ----------------------------------------------------------------- -/
/- Specification-side definitions (from the spec's words), used to    -/
/- state the refinement claims about `cell_widths` and emission.      -/
/- ----------------------------------------------------------------- -/

/-- Line `k` has a cell at index `col` and at least one more cell after it
(`col` is a non-trailing cell of line `k`). -/
def nonTrailing (lines : List (List Cell)) (k col : Nat) : Prop :=
  col + 1 < (lines.getD k []).length

instance (lines : List (List Cell)) (k col : Nat) :
    Decidable (nonTrailing lines k col) := by
  unfold nonTrailing; infer_instance

/-- The first line of the maximal contiguous run of consecutive lines,
ending at `j`, in which `col` is a non-trailing cell of every line strictly
before `j`. -/
def runStart (lines : List (List Cell)) (col : Nat) : Nat → Nat
  | 0 => 0
  | j + 1 => if col + 1 < (lines.getD j []).length then runStart lines col j else j + 1

/-- The maximal contiguous run of consecutive lines containing `j` in which
`col` is a non-trailing cell of each line. -/
def specRun (lines : List (List Cell)) (col j : Nat) : List (List Cell) :=
  (lines.drop (runStart lines col j)).take
    (contigFrom col (lines.drop (runStart lines col j)))

/-- The width the spec assigns to `(j, col)`: `max(minwidth, max of cell
col's display width over every line of the maximal run containing j)`. -/
def specWidth (lines : List (List Cell)) (mw col j : Nat) : Nat :=
  max mw (((specRun lines col j).map
    (fun line => (line.getD col (Cell.new 0)).width)).foldr max 0)

/-- The spec's emission of one cell: its raw bytes, then — unless it is the
line's last cell — `padding + (assigned_width - cell.width)` spaces. -/
def specCellBytes (buf : List Nat) (padcfg : Nat) (ws : List Nat)
    (lineLen i : Nat) (cell : Cell) : List Nat :=
  listSlice buf cell.start (cell.start + cell.size) ++
    (if i + 1 = lineLen then []
     else padBytes (padcfg + (ws.getD i 0 - cell.width)))

/-- The spec's emission of one line: its cells in order. -/
def specLineBytes (buf : List Nat) (padcfg : Nat) (lw : List Cell × List Nat) :
    List Nat :=
  ((List.range lw.1.length).map
    (fun i => specCellBytes buf padcfg lw.2 lw.1.length i (lw.1.getD i (Cell.new 0)))).flatten

/-- The spec's emission of a whole round: the lines, separated by a single
newline byte, with no trailing newline after the final line. -/
def specEmit (buf : List Nat) (padcfg : Nat) (lws : List (List Cell × List Nat)) :
    List Nat :=
  match lws with
  | [] => []
  | lw :: rest =>
    specLineBytes buf padcfg lw ++
      (rest.map (fun lw2 => 10 :: specLineBytes buf padcfg lw2)).flatten

/-- The invariant carried through `cell_widths`: `F j col` says that column
`col` of line `j` has already been assigned its width.  The assigned prefix
of every `ws[j]` holds exactly the spec widths. -/
def WsInv (lines : List (List Cell)) (mw : Nat) (F : Nat → Nat → Prop)
    (ws : List (List Nat)) : Prop :=
  ws.length = lines.length ∧
  ∀ j : Nat,
    (∀ col, col < (ws.getD j []).length ↔ F j col) ∧
    (∀ col, col < (ws.getD j []).length → (ws.getD j []).getD col 0 = specWidth lines mw col j)

/-- Frontier after the outer loop has processed lines `< i`: `(j, col)` is
assigned iff its run starts strictly before `i`. -/
def frontierO (lines : List (List Cell)) (i j col : Nat) : Prop :=
  nonTrailing lines j col ∧ runStart lines col j < i

/-- Frontier inside the column loop of line `i`, before column `b`:
additionally the runs that start at `i` with column `< b` are assigned. -/
def frontierI (lines : List (List Cell)) (i b j col : Nat) : Prop :=
  nonTrailing lines j col ∧
    (runStart lines col j < i ∨ (runStart lines col j = i ∧ col < b))

/-- Well-formedness of the buffered cells of a `TabWriter`: the in-progress
cell sits at the end of the buffer, and every terminated cell's byte range is
inside the buffer with `width` equal to its recomputed display width. -/
def cellsWF (tw : TabWriter) : Prop :=
  tw.curcell.start + tw.curcell.size = tw.buf.length ∧
  ∀ line ∈ tw.lines, ∀ c ∈ line,
    c.start + c.size ≤ tw.buf.length ∧
    c.width = display_columns (listSlice tw.buf c.start (c.start + c.size))


/- ----------------------------------------------------------------- -/
/- List utilities.                                                    -/
/- ----------------------------------------------------------------- -/

theorem getD_nil_of_ge {α : Type} (l : List (List α)) (j : Nat) (h : l.length ≤ j) :
    l.getD j [] = [] := by
  rw [List.getD_eq_getElem?_getD, List.getElem?_eq_none h]; rfl

theorem getD_drop' {α : Type} (l : List (List α)) (i k : Nat) :
    (l.drop i).getD k [] = l.getD (i + k) [] := by
  rw [List.getD_eq_getElem?_getD, List.getD_eq_getElem?_getD, List.getElem?_drop]

theorem getD_mapIdxFrom (f : Nat → List Nat → List Nat) :
    ∀ (l : List (List Nat)) (k j : Nat),
      (mapIdxFrom f k l).getD j [] =
        if j < l.length then f (k + j) (l.getD j []) else [] := by
  intro l
  induction l with
  | nil => intro k j; simp [mapIdxFrom]
  | cons x xs ih =>
    intro k j
    cases j with
    | zero => simp [mapIdxFrom]
    | succ j =>
      simp only [mapIdxFrom, List.getD_cons_succ, List.length_cons]
      rw [ih (k + 1) j]
      have h1 : k + 1 + j = k + (j + 1) := by omega
      rw [h1]
      by_cases h : j < xs.length
      · rw [if_pos h, if_pos (by omega)]
      · rw [if_neg h, if_neg (by omega)]

theorem length_mapIdxFrom (f : Nat → List Nat → List Nat) :
    ∀ (l : List (List Nat)) (k : Nat), (mapIdxFrom f k l).length = l.length := by
  intro l
  induction l with
  | nil => intro k; rfl
  | cons x xs ih => intro k; simp [mapIdxFrom, ih]

theorem pushRun_getD (ws : List (List Nat)) (i contig w j : Nat) :
    (pushRun ws i contig w).getD j [] =
      if j < ws.length ∧ i ≤ j ∧ j < i + contig then ws.getD j [] ++ [w]
      else ws.getD j [] := by
  unfold pushRun
  rw [getD_mapIdxFrom]
  by_cases hlen : j < ws.length
  · simp only [hlen, if_true, Nat.zero_add, true_and]
  · rw [if_neg hlen, if_neg (by omega), getD_nil_of_ge ws j (by omega)]

theorem pushRun_length (ws : List (List Nat)) (i contig w : Nat) :
    (pushRun ws i contig w).length = ws.length := by
  unfold pushRun; rw [length_mapIdxFrom]

theorem getD_replicate_nil (n j : Nat) :
    (List.replicate n ([] : List Nat)).getD j [] = [] := by
  rw [List.getD_eq_getElem?_getD, List.getElem?_replicate]
  by_cases h : j < n <;> simp [h]

theorem getD_append_lt (l : List Nat) (w : Nat) (c : Nat) (d : Nat) (h : c < l.length) :
    (l ++ [w]).getD c d = l.getD c d := by
  rw [List.getD_eq_getElem?_getD, List.getD_eq_getElem?_getD,
    List.getElem?_append_left h]

theorem getD_append_len (l : List Nat) (w : Nat) (d : Nat) :
    (l ++ [w]).getD l.length d = w := by
  rw [List.getD_eq_getElem?_getD, List.getElem?_concat_length]; rfl

theorem getD_append_len' (l : List Nat) (w : Nat) (d c : Nat) (h : l.length = c) :
    (l ++ [w]).getD c d = w := by
  subst h; exact getD_append_len l w d

/- ----------------------------------------------------------------- -/
/- Facts about the run scan and `runStart`.                           -/
/- ----------------------------------------------------------------- -/

theorem contigFrom_nil (col : Nat) : contigFrom col [] = 0 := rfl

theorem contigFrom_cons (col : Nat) (line : List Cell) (rest : List (List Cell)) :
    contigFrom col (line :: rest) =
      if col + 1 < line.length then contigFrom col rest + 1 else 0 := rfl

theorem contigFrom_lt (col : Nat) :
    ∀ (L : List (List Cell)) (k : Nat), k < contigFrom col L →
      col + 1 < (L.getD k []).length := by
  intro L
  induction L with
  | nil => intro k h; rw [contigFrom_nil] at h; omega
  | cons line rest ih =>
    intro k h
    rw [contigFrom_cons] at h
    by_cases hnt : col + 1 < line.length
    · rw [if_pos hnt] at h
      cases k with
      | zero => simpa using hnt
      | succ k => exact ih k (by omega)
    · rw [if_neg hnt] at h; omega

theorem contigFrom_end (col : Nat) :
    ∀ (L : List (List Cell)),
      ¬ col + 1 < (L.getD (contigFrom col L) []).length := by
  intro L
  induction L with
  | nil => rw [contigFrom_nil]; simp
  | cons line rest ih =>
    rw [contigFrom_cons]
    by_cases hnt : col + 1 < line.length
    · rw [if_pos hnt]; simpa using ih
    · rw [if_neg hnt]; simpa using hnt

theorem contigFrom_le_length (col : Nat) :
    ∀ (L : List (List Cell)), contigFrom col L ≤ L.length := by
  intro L
  induction L with
  | nil => rw [contigFrom_nil]; simp
  | cons line rest ih =>
    rw [contigFrom_cons]
    by_cases hnt : col + 1 < line.length
    · rw [if_pos hnt]; simpa using ih
    · rw [if_neg hnt]; simp

theorem colMaxRun_ge (col : Nat) :
    ∀ (L : List (List Cell)) (k : Nat), k < contigFrom col L →
      ((L.getD k []).getD col (Cell.new 0)).width ≤ colMaxRun col L := by
  intro L
  induction L with
  | nil => intro k h; rw [contigFrom_nil] at h; omega
  | cons line rest ih =>
    intro k h
    rw [contigFrom_cons] at h
    by_cases hnt : col + 1 < line.length
    · rw [if_pos hnt] at h
      simp only [colMaxRun, if_pos hnt]
      cases k with
      | zero => simp
      | succ k =>
        have := ih k (by omega)
        simp only [List.getD_cons_succ]
        omega
    · rw [if_neg hnt] at h; omega

theorem colMaxRun_eq_fold (col : Nat) :
    ∀ (L : List (List Cell)),
      colMaxRun col L =
        ((L.take (contigFrom col L)).map
          (fun line => (line.getD col (Cell.new 0)).width)).foldr max 0 := by
  intro L
  induction L with
  | nil => simp [colMaxRun, contigFrom_nil]
  | cons line rest ih =>
    rw [contigFrom_cons]
    simp only [colMaxRun]
    by_cases hnt : col + 1 < line.length
    · rw [if_pos hnt, if_pos hnt]
      simp [List.take_succ_cons, ih]
    · rw [if_neg hnt, if_neg hnt]
      simp

theorem runStart_zero (lines : List (List Cell)) (col : Nat) :
    runStart lines col 0 = 0 := rfl

theorem runStart_succ (lines : List (List Cell)) (col j : Nat) :
    runStart lines col (j + 1) =
      if col + 1 < (lines.getD j []).length then runStart lines col j else j + 1 := rfl

theorem runStart_le (lines : List (List Cell)) (col : Nat) :
    ∀ j, runStart lines col j ≤ j := by
  intro j
  induction j with
  | zero => rw [runStart_zero]
  | succ j ih =>
    rw [runStart_succ]
    by_cases h : col + 1 < (lines.getD j []).length
    · rw [if_pos h]; omega
    · rw [if_neg h]

theorem runStart_nt (lines : List (List Cell)) (col : Nat) :
    ∀ j k, runStart lines col j ≤ k → k < j →
      col + 1 < (lines.getD k []).length := by
  intro j
  induction j with
  | zero => intro k h1 h2; omega
  | succ j ih =>
    intro k h1 h2
    rw [runStart_succ] at h1
    by_cases h : col + 1 < (lines.getD j []).length
    · rw [if_pos h] at h1
      by_cases hk : k < j
      · exact ih k h1 hk
      · have : k = j := by omega
        subst this; exact h
    · rw [if_neg h] at h1; omega

theorem runStart_pos (lines : List (List Cell)) (col : Nat) :
    ∀ j, 0 < runStart lines col j →
      ¬ col + 1 < (lines.getD (runStart lines col j - 1) []).length := by
  intro j
  induction j with
  | zero => intro h; rw [runStart_zero] at h; omega
  | succ j ih =>
    intro h
    rw [runStart_succ] at h ⊢
    by_cases hnt : col + 1 < (lines.getD j []).length
    · rw [if_pos hnt] at h ⊢; exact ih h
    · rw [if_neg hnt] at h ⊢; simpa using hnt

theorem runStart_lt_imp (lines : List (List Cell)) (col : Nat) :
    ∀ j, runStart lines col j < j →
      col + 1 < (lines.getD (j - 1) []).length := by
  intro j
  cases j with
  | zero => intro h; omega
  | succ j =>
    intro h
    rw [runStart_succ] at h
    by_cases hnt : col + 1 < (lines.getD j []).length
    · simpa using hnt
    · rw [if_neg hnt] at h; omega

theorem runStart_eq_of (lines : List (List Cell)) (col s : Nat) :
    ∀ j, s ≤ j → (∀ k, s ≤ k → k < j → col + 1 < (lines.getD k []).length) →
      (s = 0 ∨ ¬ col + 1 < (lines.getD (s - 1) []).length) →
      runStart lines col j = s := by
  intro j
  induction j with
  | zero => intro h1 _ _; rw [runStart_zero]; omega
  | succ j ih =>
    intro h1 h2 h3
    by_cases hsj : s = j + 1
    · subst hsj
      rw [runStart_succ]
      rcases h3 with h3 | h3
      · omega
      · have : ¬ col + 1 < (lines.getD j []).length := by
          have hj : (j + 1) - 1 = j := by omega
          rwa [hj] at h3
        rw [if_neg this]
    · have hsle : s ≤ j := by omega
      have hnt : col + 1 < (lines.getD j []).length := h2 j hsle (by omega)
      rw [runStart_succ, if_pos hnt]
      exact ih hsle (fun k hk1 hk2 => h2 k hk1 (by omega)) h3

theorem runStart_mono_col (lines : List (List Cell)) (col col' : Nat) (h : col' ≤ col) :
    ∀ j, runStart lines col' j ≤ runStart lines col j := by
  intro j
  induction j with
  | zero => rw [runStart_zero, runStart_zero]
  | succ j ih =>
    rw [runStart_succ, runStart_succ]
    by_cases hnt : col + 1 < (lines.getD j []).length
    · rw [if_pos hnt]
      have hnt' : col' + 1 < (lines.getD j []).length := by omega
      rw [if_pos hnt']
      exact ih
    · rw [if_neg hnt]
      by_cases hnt' : col' + 1 < (lines.getD j []).length
      · rw [if_pos hnt']
        have := runStart_le lines col' j
        omega
      · rw [if_neg hnt']

theorem nonTrailing_lt_length (lines : List (List Cell)) (j col : Nat)
    (h : col + 1 < (lines.getD j []).length) : j < lines.length := by
  by_contra hc
  rw [getD_nil_of_ge lines j (by omega)] at h
  simp at h

theorem run_mem (lines : List (List Cell)) (col j : Nat)
    (h : col + 1 < (lines.getD j []).length) :
    j - runStart lines col j <
      contigFrom col (lines.drop (runStart lines col j)) := by
  set s := runStart lines col j with hs
  have hsle : s ≤ j := runStart_le lines col j
  by_contra hc
  have hcf : contigFrom col (lines.drop s) ≤ j - s := by omega
  -- the run scan from s stops at s + contigFrom, which would lie inside [s, j]
  have hend := contigFrom_end col (lines.drop s)
  rw [getD_drop'] at hend
  have hk : s + contigFrom col (lines.drop s) < j ∨
      s + contigFrom col (lines.drop s) = j := by omega
  rcases hk with hk | hk
  · exact hend (runStart_nt lines col j _ (by omega) hk)
  · rw [hk] at hend; exact hend h

/- ----------------------------------------------------------------- -/
/- The `cell_widths` invariant.                                       -/
/- ----------------------------------------------------------------- -/

theorem prefix_len_eq {m k : Nat} (h : ∀ c, c < m ↔ c < k) : m = k := by
  have h1 := h m
  have h2 := h k
  omega

theorem WsInv_congr (lines : List (List Cell)) (mw : Nat)
    (F G : Nat → Nat → Prop) (ws : List (List Nat))
    (h : ∀ j c, F j c ↔ G j c) (hinv : WsInv lines mw F ws) :
    WsInv lines mw G ws :=
  ⟨hinv.1, fun j =>
    ⟨fun col => ((hinv.2 j).1 col).trans (h j col), (hinv.2 j).2⟩⟩

theorem colLoop_zero (lines : List (List Cell)) (mw i col : Nat) (ws : List (List Nat)) :
    colLoop lines mw i 0 col ws = ws := rfl

theorem colLoop_succ (lines : List (List Cell)) (mw i f col : Nat) (ws : List (List Nat)) :
    colLoop lines mw i (f + 1) col ws =
      colLoop lines mw i f (col + 1) (colStep lines mw i col ws) := rfl

theorem cwOuter_zero (lines : List (List Cell)) (mw i : Nat) (ws : List (List Nat)) :
    cwOuter lines mw 0 i ws = ws := rfl

theorem cwOuter_succ (lines : List (List Cell)) (mw f i : Nat) (ws : List (List Nat)) :
    cwOuter lines mw (f + 1) i ws =
      cwOuter lines mw f (i + 1) (lineStep lines mw i ws) := rfl

theorem frontierI_char (lines : List (List Cell)) (i col j b : Nat)
    (hntj : col + 1 < (lines.getD j []).length)
    (hrsj : runStart lines col j = i)
    (hb1 : col ≤ b) (hb2 : b ≤ col + 1) :
    ∀ c, frontierI lines i b j c ↔ c < b := by
  intro c
  unfold frontierI nonTrailing
  constructor
  · rintro ⟨hnt, hF⟩
    by_contra hbc
    have hcge : col ≤ c := by omega
    have hmono := runStart_mono_col lines c col hcge j
    rcases hF with h | ⟨h, h2⟩ <;> omega
  · intro hc
    have hcle : c ≤ col := by omega
    refine ⟨by omega, ?_⟩
    have hmono := runStart_mono_col lines col c hcle j
    by_cases h : runStart lines c j < i
    · exact Or.inl h
    · have hle := runStart_le lines c j
      exact Or.inr ⟨by omega, hc⟩

theorem run_closed (lines : List (List Cell)) (i col j : Nat)
    (hntj : col + 1 < (lines.getD j []).length)
    (hrsj : runStart lines col j = i) :
    i ≤ j ∧ j < i + contigFrom col (lines.drop i) := by
  have h1 : i ≤ j := by
    have := runStart_le lines col j
    omega
  have h2 := run_mem lines col j hntj
  rw [hrsj] at h2
  exact ⟨h1, by omega⟩

theorem frontierI_out (lines : List (List Cell)) (i col j : Nat)
    (hout : ¬ (i ≤ j ∧ j < i + contigFrom col (lines.drop i))) :
    ∀ c, frontierI lines i (col + 1) j c ↔ frontierI lines i col j c := by
  intro c
  unfold frontierI nonTrailing
  constructor
  · rintro ⟨hnt, hF⟩
    refine ⟨hnt, ?_⟩
    rcases hF with h | ⟨h, h2⟩
    · exact Or.inl h
    · by_cases hcc : c < col
      · exact Or.inr ⟨h, hcc⟩
      · have hceq : c = col := by omega
        subst hceq
        exact absurd (run_closed lines i c j hnt h) hout
  · rintro ⟨hnt, hF⟩
    refine ⟨hnt, ?_⟩
    rcases hF with h | ⟨h, h2⟩
    · exact Or.inl h
    · exact Or.inr ⟨h, by omega⟩

theorem colStep_inv (lines : List (List Cell)) (mw i col : Nat) (ws : List (List Nat))
    (hcol : col + 1 < (lines.getD i []).length)
    (hrs : runStart lines col i = i)
    (hinv : WsInv lines mw (frontierI lines i col) ws) :
    WsInv lines mw (frontierI lines i (col + 1)) (colStep lines mw i col ws) := by
  obtain ⟨hlen, hj⟩ := hinv
  have hn : i < lines.length := nonTrailing_lt_length lines i col hcol
  have hcle : i + contigFrom col (lines.drop i) ≤ lines.length := by
    have h1 := contigFrom_le_length col (lines.drop i)
    rw [List.length_drop] at h1
    omega
  have hF2 : ∀ j, i ≤ j → j < i + contigFrom col (lines.drop i) →
      col + 1 < (lines.getD j []).length := by
    intro j h1 h2
    have h3 := contigFrom_lt col (lines.drop i) (j - i) (by omega)
    rw [getD_drop'] at h3
    have hij : i + (j - i) = j := by omega
    rwa [hij] at h3
  have hbound : i = 0 ∨ ¬ col + 1 < (lines.getD (i - 1) []).length := by
    by_cases hi : i = 0
    · exact Or.inl hi
    · right
      have h0 : 0 < runStart lines col i := by omega
      have h4 := runStart_pos lines col i h0
      rwa [hrs] at h4
  have hF4 : ∀ j, i ≤ j → j < i + contigFrom col (lines.drop i) →
      runStart lines col j = i := by
    intro j h1 h2
    exact runStart_eq_of lines col i j h1
      (fun k hk1 hk2 => hF2 k hk1 (by omega)) hbound
  constructor
  · unfold colStep
    rw [pushRun_length]
    exact hlen
  · intro j
    have hg : (colStep lines mw i col ws).getD j [] =
        if j < ws.length ∧ i ≤ j ∧ j < i + contigFrom col (lines.drop i)
        then ws.getD j [] ++ [max mw (colMaxRun col (lines.drop i))]
        else ws.getD j [] := by
      unfold colStep
      exact pushRun_getD ws i _ _ j
    by_cases hjin : i ≤ j ∧ j < i + contigFrom col (lines.drop i)
    · -- line j belongs to the run: one width is appended
      have hjlt : j < ws.length := by omega
      rw [hg, if_pos ⟨hjlt, hjin⟩]
      have hntj : col + 1 < (lines.getD j []).length := hF2 j hjin.1 hjin.2
      have hrsj : runStart lines col j = i := hF4 j hjin.1 hjin.2
      have hold : ∀ c, c < (ws.getD j []).length ↔ c < col := by
        intro c
        rw [(hj j).1 c]
        exact frontierI_char lines i col j col hntj hrsj (by omega) (by omega) c
      have holdlen : (ws.getD j []).length = col := prefix_len_eq hold
      constructor
      · intro c
        rw [List.length_append, holdlen]
        have hchar := frontierI_char lines i col j (col + 1) hntj hrsj
          (by omega) (by omega) c
        simp only [List.length_cons, List.length_nil]
        rw [hchar]
      · intro c hc
        rw [List.length_append, holdlen] at hc
        simp only [List.length_cons, List.length_nil] at hc
        by_cases hcc : c < col
        · rw [getD_append_lt _ _ _ _ (by omega)]
          exact (hj j).2 c (by omega)
        · have hceq : c = col := by omega
          subst hceq
          rw [getD_append_len' _ _ _ _ holdlen]
          unfold specWidth specRun
          rw [hrsj, ← colMaxRun_eq_fold]
    · -- line j is outside the run: unchanged
      rw [hg, if_neg (by tauto)]
      constructor
      · intro c
        rw [(hj j).1 c]
        exact (frontierI_out lines i col j hjin c).symm
      · exact (hj j).2

theorem colLoop_inv (lines : List (List Cell)) (mw i : Nat) :
    ∀ (f col : Nat) (ws : List (List Nat)),
      (∀ c, col ≤ c → c + 1 < (lines.getD i []).length → runStart lines c i = i) →
      col + f + 1 = (lines.getD i []).length →
      WsInv lines mw (frontierI lines i col) ws →
      WsInv lines mw (frontierI lines i (col + f)) (colLoop lines mw i f col ws) := by
  intro f
  induction f with
  | zero =>
    intro col ws _ _ hinv
    rw [colLoop_zero]
    exact hinv
  | succ f ih =>
    intro col ws hrs hlen hinv
    rw [colLoop_succ]
    have hcol : col + 1 < (lines.getD i []).length := by omega
    have hstep := colStep_inv lines mw i col ws hcol
      (hrs col (by omega) hcol) hinv
    have := ih (col + 1) (colStep lines mw i col ws)
      (fun c hc1 hc2 => hrs c (by omega) hc2) (by omega) hstep
    have harith : col + 1 + f = col + (f + 1) := by omega
    rwa [harith] at this

theorem lineStep_inv (lines : List (List Cell)) (mw i : Nat) (ws : List (List Nat))
    (hinv : WsInv lines mw (frontierO lines i) ws) :
    WsInv lines mw (frontierO lines (i + 1)) (lineStep lines mw i ws) := by
  -- a pair (j, c) whose run starts exactly at line i forces c to be a
  -- non-trailing column of line i
  have hnewNT : ∀ j c, (frontierO lines (i + 1) j c ∧ ¬ frontierO lines i j c) →
      c + 1 < (lines.getD i []).length := by
    intro j c ⟨⟨hnt, hlt⟩, hneg⟩
    unfold frontierO at hneg
    have hrs : runStart lines c j = i := by
      by_contra hne
      exact hneg ⟨hnt, by omega⟩
    have hle := runStart_le lines c j
    by_cases hji : i = j
    · subst hji; exact hnt
    · exact runStart_nt lines c j i (by omega) (by omega)
  unfold lineStep
  by_cases hempty : (lines.getD i []).length = 0
  · rw [if_pos hempty]
    refine WsInv_congr lines mw _ _ ws ?_ hinv
    intro j c
    unfold frontierO
    constructor
    · rintro ⟨hnt, hlt⟩; exact ⟨hnt, by omega⟩
    · rintro ⟨hnt, hlt⟩
      refine ⟨hnt, ?_⟩
      by_contra hge
      have : c + 1 < (lines.getD i []).length :=
        hnewNT j c ⟨⟨hnt, hlt⟩, by unfold frontierO; tauto⟩
      omega
  · rw [if_neg hempty]
    obtain ⟨hlen, hj⟩ := hinv
    -- the assigned prefix of line i
    have hmi : ∀ c, c < (ws.getD i []).length ↔
        (c + 1 < (lines.getD i []).length ∧ runStart lines c i < i) := by
      intro c
      rw [(hj i).1 c]
      unfold frontierO nonTrailing
      tauto
    have hmle : (ws.getD i []).length ≤ (lines.getD i []).length - 1 := by
      by_cases h0 : (ws.getD i []).length = 0
      · omega
      · have := (hmi ((ws.getD i []).length - 1)).1 (by omega)
        omega
    have hunassigned : ∀ c, (ws.getD i []).length ≤ c →
        c + 1 < (lines.getD i []).length → runStart lines c i = i := by
      intro c hc1 hc2
      have hle := runStart_le lines c i
      by_cases h : runStart lines c i < i
      · have := (hmi c).2 ⟨hc2, h⟩
        omega
      · omega
    -- entry: frontierI i m agrees with frontierO i
    have hentry : WsInv lines mw
        (frontierI lines i ((ws.getD i []).length)) ws := by
      refine WsInv_congr lines mw _ _ ws ?_ ⟨hlen, hj⟩
      intro j c
      unfold frontierO frontierI
      constructor
      · rintro ⟨hnt, hlt⟩; exact ⟨hnt, Or.inl hlt⟩
      · rintro ⟨hnt, hF⟩
        refine ⟨hnt, ?_⟩
        rcases hF with h | ⟨h, h2⟩
        · exact h
        · -- run of (j, c) starts at i but c is already assigned for line i:
          -- impossible, the two runs would have to coincide
          have hci : runStart lines c i < i := ((hmi c).1 h2).2
          have hi0 : 0 < i := by omega
          have hnta := runStart_lt_imp lines c i hci
          have hntb := runStart_pos lines c j (by omega)
          rw [h] at hntb
          exact absurd hnta hntb
    have hloop := colLoop_inv lines mw i
      ((lines.getD i []).length - 1 - (ws.getD i []).length)
      ((ws.getD i []).length) ws hunassigned (by omega) hentry
    have harith : (ws.getD i []).length +
        ((lines.getD i []).length - 1 - (ws.getD i []).length) =
        (lines.getD i []).length - 1 := by omega
    rw [harith] at hloop
    -- exit: frontierI i (len i - 1) agrees with frontierO (i+1)
    refine WsInv_congr lines mw _ _ _ ?_ hloop
    intro j c
    unfold frontierI frontierO
    constructor
    · rintro ⟨hnt, hF⟩
      refine ⟨hnt, ?_⟩
      rcases hF with h | ⟨h, h2⟩ <;> omega
    · rintro ⟨hnt, hlt⟩
      refine ⟨hnt, ?_⟩
      by_cases h : runStart lines c j < i
      · exact Or.inl h
      · have heq : runStart lines c j = i := by omega
        refine Or.inr ⟨heq, ?_⟩
        have : c + 1 < (lines.getD i []).length :=
          hnewNT j c ⟨⟨hnt, hlt⟩, by unfold frontierO; omega⟩
        omega

theorem cwOuter_inv (lines : List (List Cell)) (mw : Nat) :
    ∀ (f i : Nat) (ws : List (List Nat)),
      WsInv lines mw (frontierO lines i) ws →
      WsInv lines mw (frontierO lines (i + f)) (cwOuter lines mw f i ws) := by
  intro f
  induction f with
  | zero =>
    intro i ws hinv
    rw [cwOuter_zero]
    exact hinv
  | succ f ih =>
    intro i ws hinv
    rw [cwOuter_succ]
    have := ih (i + 1) (lineStep lines mw i ws) (lineStep_inv lines mw i ws hinv)
    have harith : i + 1 + f = i + (f + 1) := by omega
    rwa [harith] at this

theorem cell_widths_inv (lines : List (List Cell)) (mw : Nat) :
    WsInv lines mw (fun j c => c + 1 < (lines.getD j []).length)
      (cell_widths lines mw) := by
  have hinit : WsInv lines mw (frontierO lines 0) (List.replicate lines.length []) := by
    constructor
    · exact List.length_replicate lines.length []
    · intro j
      constructor
      · intro c
        rw [getD_replicate_nil]
        unfold frontierO
        simp
      · intro c hc
        rw [getD_replicate_nil] at hc
        simp at hc
  have h := cwOuter_inv lines mw lines.length 0 (List.replicate lines.length []) hinit
  unfold cell_widths
  refine WsInv_congr lines mw _ _ _ ?_ h
  intro j c
  unfold frontierO nonTrailing
  constructor
  · rintro ⟨hnt, _⟩; exact hnt
  · intro hnt
    have hjn := nonTrailing_lt_length lines j c hnt
    have := runStart_le lines c j
    exact ⟨hnt, by omega⟩

theorem cell_widths_length (lines : List (List Cell)) (mw : Nat) :
    (cell_widths lines mw).length = lines.length :=
  (cell_widths_inv lines mw).1

theorem cell_widths_getD_length (lines : List (List Cell)) (mw j : Nat) :
    ((cell_widths lines mw).getD j []).length = (lines.getD j []).length - 1 := by
  have h := ((cell_widths_inv lines mw).2 j).1
  refine prefix_len_eq ?_
  intro c
  rw [h c]
  omega

theorem cell_widths_getD (lines : List (List Cell)) (mw j col : Nat)
    (h : col + 1 < (lines.getD j []).length) :
    ((cell_widths lines mw).getD j []).getD col 0 = specWidth lines mw col j := by
  have hinv := cell_widths_inv lines mw
  refine ((hinv.2 j).2) col ?_
  rw [(hinv.2 j).1 col]
  exact h

/- ----------------------------------------------------------------- -/
/- Counting width assignments (linearity of `cell_widths`).           -/
/- ----------------------------------------------------------------- -/

theorem sum_map_eq_range {α : Type} (d : α) (f : α → Nat) :
    ∀ (xs : List α),
      (xs.map f).sum = ((List.range xs.length).map (fun j => f (xs.getD j d))).sum := by
  intro xs
  induction xs with
  | nil => rfl
  | cons x xs ih =>
    rw [List.map_cons, List.sum_cons, List.length_cons, List.range_succ_eq_map,
      List.map_cons, List.sum_cons, List.map_map]
    congr 1

theorem pushRun_sum_aux (i contig w : Nat) :
    ∀ (ws : List (List Nat)) (k : Nat),
      ((mapIdxFrom (fun j l => if i ≤ j ∧ j < i + contig then l ++ [w] else l) k ws).map
          List.length).sum =
        (ws.map List.length).sum +
          (min (i + contig) (k + ws.length) - min (i + contig) (max i k)) := by
  intro ws
  induction ws with
  | nil => intro k; simp [mapIdxFrom]
  | cons x xs ih =>
    intro k
    simp only [mapIdxFrom, List.map_cons, List.sum_cons]
    rw [ih (k + 1)]
    by_cases hk : i ≤ k ∧ k < i + contig
    · rw [if_pos hk]
      rw [List.length_append]
      simp only [List.length_cons, List.length_nil]
      omega
    · rw [if_neg hk]
      simp only [List.length_cons]
      omega

theorem pushRun_sum (ws : List (List Nat)) (i contig w : Nat)
    (h : i + contig ≤ ws.length) :
    ((pushRun ws i contig w).map List.length).sum =
      (ws.map List.length).sum + contig := by
  unfold pushRun
  rw [pushRun_sum_aux]
  omega

theorem colStep_sum (lines : List (List Cell)) (mw i col : Nat) (ws : List (List Nat))
    (h : i + contigFrom col (lines.drop i) ≤ ws.length) :
    ((colStep lines mw i col ws).map List.length).sum =
      (ws.map List.length).sum + contigFrom col (lines.drop i) := by
  unfold colStep
  exact pushRun_sum ws i _ _ h

theorem cell_widths_total (lines : List (List Cell)) (mw : Nat) :
    ((cell_widths lines mw).map List.length).sum =
      (lines.map (fun l => l.length - 1)).sum := by
  rw [sum_map_eq_range ([] : List Nat) List.length (cell_widths lines mw),
    cell_widths_length]
  rw [sum_map_eq_range ([] : List Cell) (fun l => l.length - 1) lines]
  refine congrArg List.sum ?_
  refine List.map_congr_left ?_
  intro j hj
  exact cell_widths_getD_length lines mw j

theorem sum_len_sub_one_le (m : Nat) :
    ∀ (l : List (List Cell)), (∀ x ∈ l, x.length ≤ m) →
      (l.map (fun x => x.length - 1)).sum ≤ l.length * m := by
  intro l
  induction l with
  | nil => intro _; simp
  | cons x xs ih =>
    intro h
    rw [List.map_cons, List.sum_cons, List.length_cons, Nat.succ_mul]
    have h1 := h x (List.mem_cons_self x xs)
    have h2 := ih (fun y hy => h y (List.mem_cons_of_mem x hy))
    omega

/- ----------------------------------------------------------------- -/
/- Emission lemmas.                                                   -/
/- ----------------------------------------------------------------- -/

theorem sinkWrite_true_out (s : Sink) (b : List Nat)
    (h : (sinkWrite s b).2 = true) :
    (sinkWrite s b).1.out = s.out ++ b := by
  cases hfa : s.failAfter with
  | none => simp [sinkWrite, hfa]
  | some n =>
    cases n with
    | zero => simp [sinkWrite, hfa] at h
    | succ n => simp [sinkWrite, hfa]

theorem sinkWrite_none (s : Sink) (b : List Nat) (h : s.failAfter = none) :
    sinkWrite s b = ({ out := s.out ++ b, failAfter := none }, true) := by
  cases s with
  | mk out fa =>
    simp only at h
    subst h
    rfl

theorem emitCells_nil (buf : List Nat) (pad : Nat) (ws : List Nat) (i : Nat) (s : Sink) :
    emitCells buf pad ws i [] s = (s, true) := rfl

theorem emitCells_out (buf : List Nat) (pad : Nat) (ws : List Nat) (fullLen : Nat) :
    ∀ (rest : List Cell) (i : Nat) (s : Sink),
      i + rest.length = fullLen →
      ws.length = fullLen - 1 →
      (∀ k, i + k < ws.length → (rest.getD k (Cell.new 0)).width ≤ ws.getD (i + k) 0) →
      (emitCells buf pad ws i rest s).2 = true →
      (emitCells buf pad ws i rest s).1.out =
        s.out ++ ((List.range rest.length).map
          (fun k => specCellBytes buf pad ws fullLen (i + k)
            (rest.getD k (Cell.new 0)))).flatten := by
  intro rest
  induction rest with
  | nil =>
    intro i s hfull hws hwle hsucc
    simp [emitCells]
  | cons cell rest ih =>
    intro i s hfull hws hwle hsucc
    simp only [emitCells] at hsucc ⊢
    by_cases hr1 : (sinkWrite s (listSlice buf cell.start (cell.start + cell.size))).2 = true
    case neg =>
      rw [if_neg hr1] at hsucc
      simp at hsucc
    case pos =>
      rw [if_pos hr1] at hsucc ⊢
      have hout1 := sinkWrite_true_out s _ hr1
      by_cases hlast : ws.length ≤ i
      · -- no-padding branch: this must be the line's last cell
        rw [if_pos hlast] at hsucc ⊢
        have hrest : rest.length = 0 := by
          simp only [List.length_cons] at hfull
          omega
        have hrestnil : rest = [] := List.length_eq_zero.1 hrest
        subst hrestnil
        rw [emitCells_nil] at hsucc ⊢
        simp only [List.length_cons, List.length_nil, List.range_succ_eq_map,
          List.range_zero, List.map_nil, List.map_cons, List.flatten_cons,
          List.flatten_nil, List.getD_cons_zero]
        rw [hout1]
        unfold specCellBytes
        rw [if_pos (by simp only [List.length_cons, List.length_nil] at hfull; omega)]
        simp
      · -- padding branch
        rw [if_neg hlast] at hsucc ⊢
        by_cases hr2 : (sinkWrite
            (sinkWrite s (listSlice buf cell.start (cell.start + cell.size))).1
            (padBytes (pad + ws.getD i 0 - cell.width))).2 = true
        case neg =>
          rw [if_neg hr2] at hsucc
          simp at hsucc
        case pos =>
          rw [if_pos hr2] at hsucc ⊢
          have hout2 := sinkWrite_true_out _ _ hr2
          have hrec := ih (i + 1) _ (by simp only [List.length_cons] at hfull; omega) hws
            (fun k hk => by
              have := hwle (k + 1) (by omega)
              simp only [List.getD_cons_succ] at this
              have harith : i + (k + 1) = i + 1 + k := by omega
              rwa [harith] at this)
            hsucc
          rw [hrec, hout2, hout1]
          simp only [List.length_cons, List.range_succ_eq_map, List.map_cons,
            List.flatten_cons, List.map_map, List.getD_cons_zero]
          have hw0 : (cell.width ≤ ws.getD i 0) := by
            have := hwle 0 (by omega)
            simpa using this
          unfold specCellBytes
          rw [if_neg (by omega)]
          have hpadeq : pad + ws.getD i 0 - cell.width = pad + (ws.getD i 0 - cell.width) := by
            omega
          rw [hpadeq]
          simp only [List.append_assoc]
          refine congrArg (fun t => s.out ++ (listSlice buf cell.start (cell.start + cell.size) ++ (padBytes (pad + (ws.getD i 0 - cell.width)) ++ t))) ?_
          refine congrArg List.flatten ?_
          refine List.map_congr_left ?_
          intro k hk
          simp only [Function.comp_apply, List.getD_cons_succ]
          have harith : i + (k + 1) = i + 1 + k := by omega
          rw [harith]

theorem spec_ge_width (lines : List (List Cell)) (mw j col : Nat)
    (h : col + 1 < (lines.getD j []).length) :
    ((lines.getD j []).getD col (Cell.new 0)).width ≤ specWidth lines mw col j := by
  unfold specWidth specRun
  rw [← colMaxRun_eq_fold]
  have hmem := run_mem lines col j h
  have hge := colMaxRun_ge col (lines.drop (runStart lines col j))
    (j - runStart lines col j) hmem
  rw [getD_drop'] at hge
  have hs := runStart_le lines col j
  have harith : runStart lines col j + (j - runStart lines col j) = j := by omega
  rw [harith] at hge
  omega

theorem mem_zip_getD :
    ∀ (l1 : List (List Cell)) (l2 : List (List Nat)) (x : List Cell × List Nat),
      x ∈ l1.zip l2 →
      ∃ j, j < l1.length ∧ j < l2.length ∧ x.1 = l1.getD j [] ∧ x.2 = l2.getD j [] := by
  intro l1
  induction l1 with
  | nil => intro l2 x hx; simp at hx
  | cons a l1 ih =>
    intro l2 x hx
    cases l2 with
    | nil => simp at hx
    | cons b l2 =>
      rw [List.zip_cons_cons] at hx
      rcases List.mem_cons.1 hx with h | h
      · exact ⟨0, by simp, by simp, by simp [h], by simp [h]⟩
      · obtain ⟨j, hj1, hj2, hj3, hj4⟩ := ih l2 x h
        refine ⟨j + 1, ?_, ?_, ?_, ?_⟩
        · simp only [List.length_cons]; omega
        · simp only [List.length_cons]; omega
        · simpa using hj3
        · simpa using hj4

theorem emitLines_nil (buf : List Nat) (pad : Nat) (first : Bool) (s : Sink) :
    emitLines buf pad first [] s = (s, true) := rfl

theorem specLineBytes_eq (buf : List Nat) (pad : Nat) (lw : List Cell × List Nat) :
    ((List.range lw.1.length).map
      (fun k => specCellBytes buf pad lw.2 lw.1.length (0 + k)
        (lw.1.getD k (Cell.new 0)))).flatten = specLineBytes buf pad lw := by
  unfold specLineBytes
  refine congrArg List.flatten ?_
  refine List.map_congr_left ?_
  intro k hk
  rw [Nat.zero_add]

theorem emitLines_out_false (buf : List Nat) (pad : Nat) :
    ∀ (lws : List (List Cell × List Nat)) (s : Sink),
      (∀ lw ∈ lws, lw.2.length = lw.1.length - 1 ∧
        ∀ k, k < lw.2.length → (lw.1.getD k (Cell.new 0)).width ≤ lw.2.getD k 0) →
      (emitLines buf pad false lws s).2 = true →
      (emitLines buf pad false lws s).1.out =
        s.out ++ (lws.map (fun lw => 10 :: specLineBytes buf pad lw)).flatten := by
  intro lws
  induction lws with
  | nil =>
    intro s _ _
    rw [emitLines_nil]
    simp
  | cons lw rest ih =>
    intro s hhyp hsucc
    have hlw := hhyp lw (List.mem_cons_self lw rest)
    simp only [emitLines, Bool.false_eq_true, if_false] at hsucc ⊢
    by_cases hr0 : (sinkWrite s [10]).2 = true
    case neg =>
      rw [if_neg hr0] at hsucc
      simp at hsucc
    case pos =>
      rw [if_pos hr0] at hsucc ⊢
      by_cases hr1 : (emitCells buf pad lw.2 0 lw.1 (sinkWrite s [10]).1).2 = true
      case neg =>
        rw [if_neg hr1] at hsucc
        simp at hsucc
      case pos =>
        rw [if_pos hr1] at hsucc ⊢
        rw [ih _ (fun l hl => hhyp l (List.mem_cons_of_mem lw hl)) hsucc]
        have hcells := emitCells_out buf pad lw.2 lw.1.length lw.1 0
          (sinkWrite s [10]).1 (by omega) (by omega)
          (fun k hk => by
            have hk2 : k < lw.2.length := by omega
            have := hlw.2 k hk2
            simpa using this)
          hr1
        rw [hcells, sinkWrite_true_out s [10] hr0, specLineBytes_eq]
        simp [List.append_assoc]

theorem emitLines_out_true (buf : List Nat) (pad : Nat)
    (lws : List (List Cell × List Nat)) (s : Sink)
    (hhyp : ∀ lw ∈ lws, lw.2.length = lw.1.length - 1 ∧
      ∀ k, k < lw.2.length → (lw.1.getD k (Cell.new 0)).width ≤ lw.2.getD k 0)
    (hsucc : (emitLines buf pad true lws s).2 = true) :
    (emitLines buf pad true lws s).1.out = s.out ++ specEmit buf pad lws := by
  cases lws with
  | nil =>
    rw [emitLines_nil]
    simp [specEmit]
  | cons lw rest =>
    have hlw := hhyp lw (List.mem_cons_self lw rest)
    simp only [emitLines, if_true] at hsucc ⊢
    by_cases hr1 : (emitCells buf pad lw.2 0 lw.1 s).2 = true
    case neg =>
      rw [if_neg hr1] at hsucc
      simp at hsucc
    case pos =>
      rw [if_pos hr1] at hsucc ⊢
      rw [emitLines_out_false buf pad rest _
        (fun l hl => hhyp l (List.mem_cons_of_mem lw hl)) hsucc]
      have hcells := emitCells_out buf pad lw.2 lw.1.length lw.1 0 s
        (by omega) (by omega)
        (fun k hk => by
          have hk2 : k < lw.2.length := by omega
          have := hlw.2 k hk2
          simpa using this)
        hr1
      rw [hcells, specLineBytes_eq]
      unfold specEmit
      simp [List.append_assoc]

theorem ite_pair_true {α : Type} (x : Sink) (a b : α) :
    (if ((x, true) : Sink × Bool).2 = true then a else b) = a := rfl

theorem sinkWrite_none' (o b : List Nat) :
    sinkWrite { out := o, failAfter := none } b =
      ({ out := o ++ b, failAfter := none }, true) := rfl

theorem emitCells_none (buf : List Nat) (pad : Nat) (ws : List Nat) :
    ∀ (rest : List Cell) (i : Nat) (s : Sink), s.failAfter = none →
      (emitCells buf pad ws i rest s).2 = true ∧
      (emitCells buf pad ws i rest s).1.failAfter = none := by
  intro rest
  induction rest with
  | nil =>
    intro i s h
    rw [emitCells_nil]
    exact ⟨rfl, h⟩
  | cons cell rest ih =>
    intro i s h
    obtain ⟨o, _⟩ : ∃ o, s = { out := o, failAfter := none } := by
      cases s with
      | mk out fa => simp only at h; subst h; exact ⟨out, rfl⟩
    subst_vars
    simp only [emitCells]
    rw [sinkWrite_none']
    simp only [ite_pair_true]
    by_cases hlast : ws.length ≤ i
    · rw [if_pos hlast]
      exact ih (i + 1) _ rfl
    · rw [if_neg hlast]
      rw [sinkWrite_none']
      simp only [ite_pair_true]
      exact ih (i + 1) _ rfl

theorem emitLines_none (buf : List Nat) (pad : Nat) :
    ∀ (lws : List (List Cell × List Nat)) (first : Bool) (s : Sink),
      s.failAfter = none →
      (emitLines buf pad first lws s).2 = true ∧
      (emitLines buf pad first lws s).1.failAfter = none := by
  intro lws
  induction lws with
  | nil =>
    intro first s h
    rw [emitLines_nil]
    exact ⟨rfl, h⟩
  | cons lw rest ih =>
    intro first s h
    obtain ⟨o, _⟩ : ∃ o, s = { out := o, failAfter := none } := by
      cases s with
      | mk out fa => simp only at h; subst h; exact ⟨out, rfl⟩
    subst_vars
    simp only [emitLines]
    cases first with
    | true =>
      simp only [if_true]
      have hc := emitCells_none buf pad lw.2 lw.1 0
        { out := o, failAfter := none } rfl
      rw [if_pos hc.1]
      exact ih false _ hc.2
    | false =>
      simp only [Bool.false_eq_true, if_false]
      rw [sinkWrite_none']
      simp only [ite_pair_true]
      have hc := emitCells_none buf pad lw.2 lw.1 0
        { out := o ++ [10], failAfter := none } rfl
      rw [if_pos hc.1]
      exact ih false _ hc.2

theorem zip_hyp (lines : List (List Cell)) (mw : Nat) :
    ∀ lw ∈ lines.zip (cell_widths lines mw),
      lw.2.length = lw.1.length - 1 ∧
      ∀ k, k < lw.2.length → (lw.1.getD k (Cell.new 0)).width ≤ lw.2.getD k 0 := by
  intro lw hlw
  obtain ⟨j, hj1, hj2, he1, he2⟩ := mem_zip_getD lines (cell_widths lines mw) lw hlw
  constructor
  · rw [he1, he2, cell_widths_getD_length]
  · intro k hk
    rw [he2, cell_widths_getD_length] at hk
    have hkk : k + 1 < (lines.getD j []).length := by omega
    rw [he1, he2, cell_widths_getD lines mw j k hkk]
    exact spec_ge_width lines mw j k hkk

theorem flush_out (tw : TabWriter) (s : Sink)
    (hsucc : (flush tw s).2.2 = true) :
    (flush tw s).2.1.out = s.out ++
      specEmit (term_pending tw).buf (term_pending tw).padding
        ((term_pending tw).lines.zip
          (cell_widths (term_pending tw).lines (term_pending tw).minwidth)) := by
  simp only [flush] at hsucc ⊢
  by_cases hr : (emitLines (term_pending tw).buf (term_pending tw).padding true
      ((term_pending tw).lines.zip
        (cell_widths (term_pending tw).lines (term_pending tw).minwidth)) s).2 = true
  case neg =>
    rw [if_neg hr] at hsucc
    simp at hsucc
  case pos =>
    rw [if_pos hr] at hsucc ⊢
    exact emitLines_out_true _ _ _ _ (zip_hyp _ _) hr

theorem flush_true_state (tw : TabWriter) (s : Sink)
    (hsucc : (flush tw s).2.2 = true) :
    (flush tw s).1 = reset (term_pending tw) := by
  simp only [flush] at hsucc ⊢
  by_cases hr : (emitLines (term_pending tw).buf (term_pending tw).padding true
      ((term_pending tw).lines.zip
        (cell_widths (term_pending tw).lines (term_pending tw).minwidth)) s).2 = true
  case neg =>
    rw [if_neg hr] at hsucc
    simp at hsucc
  case pos =>
    rw [if_pos hr]

theorem flush_false_state (tw : TabWriter) (s : Sink)
    (hfail : (flush tw s).2.2 = false) :
    (flush tw s).1 = term_pending tw := by
  simp only [flush] at hfail ⊢
  by_cases hr : (emitLines (term_pending tw).buf (term_pending tw).padding true
      ((term_pending tw).lines.zip
        (cell_widths (term_pending tw).lines (term_pending tw).minwidth)) s).2 = true
  case pos =>
    rw [if_pos hr] at hfail
    simp at hfail
  case neg =>
    rw [if_neg hr]

theorem flush_none (tw : TabWriter) (s : Sink) (h : s.failAfter = none) :
    (flush tw s).2.2 = true ∧ (flush tw s).2.1.failAfter = none := by
  simp only [flush]
  have he := emitLines_none (term_pending tw).buf (term_pending tw).padding
    ((term_pending tw).lines.zip
      (cell_widths (term_pending tw).lines (term_pending tw).minwidth)) true s h
  rw [if_pos he.1]
  exact ⟨rfl, he.2⟩

theorem term_pending_idem (tw : TabWriter) :
    term_pending (term_pending tw) = term_pending tw := by
  unfold term_pending
  by_cases h : 0 < tw.curcell.size
  · rw [if_pos h]
    rw [if_neg (by simp [term_curcell, Cell.new])]
  · rw [if_neg h, if_neg h]

/- ----------------------------------------------------------------- -/
/- Write-path lemmas.                                                 -/
/- ----------------------------------------------------------------- -/

theorem add_bytes_nil (tw : TabWriter) : add_bytes tw [] = tw := by
  unfold add_bytes
  cases tw with
  | mk buf lines curcell mw pad =>
    cases curcell with
    | mk st w sz => simp

theorem add_bytes_append (tw : TabWriter) (p1 p2 : List Nat) :
    add_bytes (add_bytes tw p1) p2 = add_bytes tw (p1 ++ p2) := by
  unfold add_bytes
  cases tw with
  | mk buf lines curcell mw pad =>
    cases curcell with
    | mk st w sz =>
      simp [List.append_assoc, List.length_append, Nat.add_assoc]

theorem writeAux_nil (tw : TabWriter) (s : Sink) (pending : List Nat) :
    writeAux tw s pending [] = (add_bytes tw pending, s, true) := rfl

theorem writeAux_absorb :
    ∀ (ys : List Nat) (tw : TabWriter) (s : Sink) (pending : List Nat),
      writeAux tw s pending ys = writeAux (add_bytes tw pending) s [] ys := by
  intro ys
  induction ys with
  | nil =>
    intro tw s pending
    rw [writeAux_nil, writeAux_nil, add_bytes_nil]
  | cons c rest ih =>
    intro tw s pending
    simp only [writeAux]
    by_cases hterm : c = 9 ∨ c = 10
    · rw [if_pos hterm, if_pos hterm, add_bytes_nil]
    · rw [if_neg hterm, if_neg hterm]
      rw [ih tw s (pending ++ [c]), ih (add_bytes tw pending) s ([] ++ [c])]
      rw [List.nil_append, add_bytes_append]

theorem writeAux_append :
    ∀ (xs : List Nat) (tw : TabWriter) (s : Sink) (pending ys : List Nat),
      writeAux tw s pending (xs ++ ys) =
        (if (writeAux tw s pending xs).2.2 then
          writeAux (writeAux tw s pending xs).1 (writeAux tw s pending xs).2.1 [] ys
        else writeAux tw s pending xs) := by
  intro xs
  induction xs with
  | nil =>
    intro tw s pending ys
    rw [List.nil_append, writeAux_nil]
    simp only [if_true]
    exact writeAux_absorb ys tw s pending
  | cons c xs ih =>
    intro tw s pending ys
    rw [List.cons_append]
    simp only [writeAux]
    by_cases hterm : c = 9 ∨ c = 10
    · rw [if_pos hterm, if_pos hterm]
      by_cases hnl : c = 10
      · rw [if_pos hnl, if_pos hnl]
        by_cases hone : (curline (term_curcell (add_bytes tw pending))).length = 1
        · rw [if_pos hone, if_pos hone]
          by_cases hfl : (flush { term_curcell (add_bytes tw pending) with
              lines := (term_curcell (add_bytes tw pending)).lines ++ [[]] } s).2.2 = true
          · rw [if_pos hfl, if_pos hfl]
            exact ih _ _ [] ys
          · rw [if_neg hfl, if_neg hfl]
            have hfl2 : (flush { term_curcell (add_bytes tw pending) with
                lines := (term_curcell (add_bytes tw pending)).lines ++ [[]] } s).2.2 = false := by
              cases hb : (flush { term_curcell (add_bytes tw pending) with
                  lines := (term_curcell (add_bytes tw pending)).lines ++ [[]] } s).2.2
              · rfl
              · exact absurd hb hfl
            rw [if_neg (by rw [hfl2]; simp)]
        · rw [if_neg hone, if_neg hone]
          exact ih _ _ [] ys
      · rw [if_neg hnl, if_neg hnl]
        exact ih _ _ [] ys
    · rw [if_neg hterm, if_neg hterm]
      exact ih _ _ (pending ++ [c]) ys

theorem writeAux_none :
    ∀ (bytes : List Nat) (tw : TabWriter) (s : Sink) (pending : List Nat),
      s.failAfter = none →
      (writeAux tw s pending bytes).2.2 = true ∧
      (writeAux tw s pending bytes).2.1.failAfter = none := by
  intro bytes
  induction bytes with
  | nil =>
    intro tw s pending h
    rw [writeAux_nil]
    exact ⟨rfl, h⟩
  | cons c rest ih =>
    intro tw s pending h
    simp only [writeAux]
    by_cases hterm : c = 9 ∨ c = 10
    · rw [if_pos hterm]
      by_cases hnl : c = 10
      · rw [if_pos hnl]
        by_cases hone : (curline (term_curcell (add_bytes tw pending))).length = 1
        · rw [if_pos hone]
          have hfl := flush_none { term_curcell (add_bytes tw pending) with
            lines := (term_curcell (add_bytes tw pending)).lines ++ [[]] } s h
          rw [if_pos hfl.1]
          exact ih _ _ [] hfl.2
        · rw [if_neg hone]
          exact ih _ _ [] h
      · rw [if_neg hnl]
        exact ih _ _ [] h
    · rw [if_neg hterm]
      exact ih _ _ (pending ++ [c]) h

theorem prod3_eta (r : TabWriter × Sink × Bool) (h : r.2.2 = true) :
    (r.1, r.2.1, true) = r := by
  cases r with
  | mk a bc =>
    cases bc with
    | mk b c =>
      simp only at h
      subst h
      rfl

theorem consume_newline (tw : TabWriter) (s : Sink) :
    consume tw s [10] =
      (if (curline (term_curcell tw)).length = 1 then
        flush { term_curcell tw with lines := (term_curcell tw).lines ++ [[]] } s
      else ({ term_curcell tw with lines := (term_curcell tw).lines ++ [[]] }, s, true)) := by
  unfold consume
  simp only [writeAux]
  rw [if_pos (Or.inr trivial : (10 : Nat) = 9 ∨ True), if_pos trivial, add_bytes_nil]
  by_cases hone : (curline (term_curcell tw)).length = 1
  · rw [if_pos hone, if_pos hone]
    by_cases hfl : (flush { term_curcell tw with
        lines := (term_curcell tw).lines ++ [[]] } s).2.2 = true
    · rw [if_pos hfl, add_bytes_nil]
      exact prod3_eta _ hfl
    · rw [if_neg hfl]
  · rw [if_neg hone, if_neg hone, add_bytes_nil]

theorem writeAux_no_newline :
    ∀ (bytes : List Nat) (tw : TabWriter) (s : Sink) (pending : List Nat),
      ¬ 10 ∈ bytes →
      (writeAux tw s pending bytes).2.1 = s ∧
      (writeAux tw s pending bytes).2.2 = true := by
  intro bytes
  induction bytes with
  | nil =>
    intro tw s pending _
    rw [writeAux_nil]
    exact ⟨rfl, rfl⟩
  | cons c rest ih =>
    intro tw s pending h
    have hc : c ≠ 10 := by
      intro he
      subst he
      exact h (List.mem_cons_self 10 rest)
    have hrest : ¬ 10 ∈ rest := fun hm => h (List.mem_cons_of_mem c hm)
    simp only [writeAux]
    by_cases hterm : c = 9 ∨ c = 10
    · rw [if_pos hterm, if_neg hc]
      exact ih _ s [] hrest
    · rw [if_neg hterm]
      exact ih _ s (pending ++ [c]) hrest

/- ----------------------------------------------------------------- -/
/- Well-formedness of buffered cells (cell widths are final).         -/
/- ----------------------------------------------------------------- -/

theorem listSlice_append (l m : List Nat) (a b : Nat) (h : b ≤ l.length) :
    listSlice (l ++ m) a b = listSlice l a b := by
  unfold listSlice
  rw [List.take_append_of_le_length h]

theorem listSlice_length (l : List Nat) (a k : Nat) (h : a + k ≤ l.length) :
    (listSlice l a (a + k)).length = k := by
  unfold listSlice
  rw [List.length_drop, List.length_take]
  omega

theorem getLastD_cases (lines : List (List Cell)) (x : Cell)
    (hx : x ∈ lines.getLastD []) : ∃ line ∈ lines, x ∈ line := by
  have h := List.getLastD_mem_cons lines ([] : List Cell)
  rcases List.mem_cons.1 h with h1 | h1
  · rw [h1] at hx
    simp at hx
  · exact ⟨lines.getLastD [], h1, hx⟩

theorem pushLast_forall (P : Cell → Prop) (lines : List (List Cell)) (c : Cell)
    (h : ∀ line ∈ lines, ∀ x ∈ line, P x) (hc : P c) :
    ∀ line ∈ pushLast lines c, ∀ x ∈ line, P x := by
  intro line hline x hx
  unfold pushLast at hline
  rcases List.mem_append.1 hline with h1 | h1
  · exact h line (List.dropLast_subset lines h1) x hx
  · have hline2 : line = lines.getLastD [] ++ [c] := by simpa using h1
    subst hline2
    rcases List.mem_append.1 hx with h2 | h2
    · obtain ⟨l0, hl0, hxl0⟩ := getLastD_cases lines x h2
      exact h l0 hl0 x hxl0
    · have : x = c := by simpa using h2
      subst this
      exact hc

theorem cellsWF_add_bytes (tw : TabWriter) (bytes : List Nat)
    (h : cellsWF tw) : cellsWF (add_bytes tw bytes) := by
  obtain ⟨h1, h2⟩ := h
  constructor
  · simp only [add_bytes, List.length_append]
    omega
  · intro line hline x hx
    have hold := h2 line hline x hx
    simp only [add_bytes]
    constructor
    · rw [List.length_append]
      omega
    · rw [listSlice_append tw.buf bytes x.start (x.start + x.size) (by omega)]
      exact hold.2

theorem cellsWF_term (tw : TabWriter) (h : cellsWF tw) :
    cellsWF (term_curcell tw) := by
  obtain ⟨h1, h2⟩ := h
  constructor
  · simp [term_curcell, Cell.new]
  · simp only [term_curcell]
    refine pushLast_forall _ tw.lines _ h2 ?_
    constructor
    · simp only [Cell.update_width]
      omega
    · simp only [Cell.update_width]

theorem cellsWF_newline (tw : TabWriter) (h : cellsWF tw) :
    cellsWF { tw with lines := tw.lines ++ [[]] } := by
  obtain ⟨h1, h2⟩ := h
  refine ⟨h1, ?_⟩
  intro line hline x hx
  rcases List.mem_append.1 hline with hl | hl
  · exact h2 line hl x hx
  · have : line = [] := by simpa using hl
    subst this
    simp at hx

theorem cellsWF_reset (tw : TabWriter) : cellsWF (reset tw) := by
  constructor
  · simp [reset, Cell.new]
  · intro line hline x hx
    simp only [reset] at hline
    have : line = [] := by simpa using hline
    subst this
    simp at hx

theorem cellsWF_term_pending (tw : TabWriter) (h : cellsWF tw) :
    cellsWF (term_pending tw) := by
  unfold term_pending
  by_cases hs : 0 < tw.curcell.size
  · rw [if_pos hs]
    exact cellsWF_term tw h
  · rw [if_neg hs]
    exact h

theorem cellsWF_flush (tw : TabWriter) (s : Sink) (h : cellsWF tw) :
    cellsWF (flush tw s).1 := by
  cases hb : (flush tw s).2.2
  · rw [flush_false_state tw s hb]
    exact cellsWF_term_pending tw h
  · rw [flush_true_state tw s hb]
    exact cellsWF_reset _

theorem cellsWF_writeAux :
    ∀ (bytes : List Nat) (tw : TabWriter) (s : Sink) (pending : List Nat),
      cellsWF tw → cellsWF (writeAux tw s pending bytes).1 := by
  intro bytes
  induction bytes with
  | nil =>
    intro tw s pending h
    rw [writeAux_nil]
    exact cellsWF_add_bytes tw pending h
  | cons c rest ih =>
    intro tw s pending h
    simp only [writeAux]
    by_cases hterm : c = 9 ∨ c = 10
    · rw [if_pos hterm]
      have hwf1 : cellsWF (term_curcell (add_bytes tw pending)) :=
        cellsWF_term _ (cellsWF_add_bytes tw pending h)
      by_cases hnl : c = 10
      · rw [if_pos hnl]
        have hwf2 : cellsWF { term_curcell (add_bytes tw pending) with
            lines := (term_curcell (add_bytes tw pending)).lines ++ [[]] } :=
          cellsWF_newline _ hwf1
        by_cases hone : (curline (term_curcell (add_bytes tw pending))).length = 1
        · rw [if_pos hone]
          by_cases hfl : (flush { term_curcell (add_bytes tw pending) with
              lines := (term_curcell (add_bytes tw pending)).lines ++ [[]] } s).2.2 = true
          · rw [if_pos hfl]
            exact ih _ _ [] (cellsWF_flush _ s hwf2)
          · rw [if_neg hfl]
            exact cellsWF_flush _ s hwf2
        · rw [if_neg hone]
          exact ih _ _ [] hwf2
      · rw [if_neg hnl]
        exact ih _ _ [] hwf1
    · rw [if_neg hterm]
      exact ih _ _ (pending ++ [c]) h

theorem cellsWF_new : cellsWF TabWriter.new := by
  constructor
  · rfl
  · intro line hline x hx
    have : line = [] := by simpa [TabWriter.new] using hline
    subst this
    simp at hx

/- ----------------------------------------------------------------- -/
/- Claim theorems.                                                    -/
/- ----------------------------------------------------------------- -/

/-- C1: for every round, line `j` and non-trailing column `col`, the width
assigned to `(j, col)` by `cell_widths` equals `max(minwidth, max of cell
col's display width over every line of the maximal contiguous run of
consecutive lines containing `j` in which `col` is not the line's last
cell)`.  The conjuncts certify that `specRun` (from `runStart` to the end of
`contigFrom`) is that maximal run: it contains `j`, every line in it has
`col` non-trailing, and it can be extended in neither direction. -/
theorem claim1_width_is_maximal_run_max (lines : List (List Cell)) (mw j col : Nat)
    (h : col + 1 < (lines.getD j []).length) :
    ((cell_widths lines mw).getD j []).getD col 0 = specWidth lines mw col j ∧
    runStart lines col j ≤ j ∧
    j < runStart lines col j + contigFrom col (lines.drop (runStart lines col j)) ∧
    (∀ k, runStart lines col j ≤ k →
      k < runStart lines col j + contigFrom col (lines.drop (runStart lines col j)) →
      nonTrailing lines k col) ∧
    (runStart lines col j = 0 ∨ ¬ nonTrailing lines (runStart lines col j - 1) col) ∧
    ¬ nonTrailing lines
      (runStart lines col j + contigFrom col (lines.drop (runStart lines col j))) col := by
  refine ⟨cell_widths_getD lines mw j col h, runStart_le lines col j, ?_, ?_, ?_, ?_⟩
  · have := run_mem lines col j h
    have := runStart_le lines col j
    omega
  · intro k hk1 hk2
    have h3 := contigFrom_lt col (lines.drop (runStart lines col j))
      (k - runStart lines col j) (by omega)
    rw [getD_drop'] at h3
    have harith : runStart lines col j + (k - runStart lines col j) = k := by omega
    rw [harith] at h3
    exact h3
  · by_cases h0 : runStart lines col j = 0
    · exact Or.inl h0
    · exact Or.inr (runStart_pos lines col j (by omega))
  · have h3 := contigFrom_end col (lines.drop (runStart lines col j))
    rw [getD_drop'] at h3
    exact h3

/-- C1 witness: a concrete two-line, two-column round. -/
theorem claim1_witness :
    0 + 1 < (([[Cell.new 0, Cell.new 0], [Cell.new 0, Cell.new 0]].getD 0 []).length) ∧
    ((cell_widths [[Cell.new 0, Cell.new 0], [Cell.new 0, Cell.new 0]] 2).getD 0 []).getD 0 0 =
      specWidth [[Cell.new 0, Cell.new 0], [Cell.new 0, Cell.new 0]] 2 0 0 :=
  ⟨by decide,
    (claim1_width_is_maximal_run_max
      [[Cell.new 0, Cell.new 0], [Cell.new 0, Cell.new 0]] 2 0 0 (by decide)).1⟩

/-- C2: consuming `"a\tbb\tc\ndddd\te"` into a fresh instance configured with
`minwidth = 2` and `padding = 2` and finalizing writes exactly
`"a     bb  c\ndddd  e"` to the sink, with both calls succeeding. -/
theorem claim2_ragged_round_trip :
    (consume ((TabWriter.new.setMinwidth 2).setPadding 2)
        { out := [], failAfter := none }
        [97, 9, 98, 98, 9, 99, 10, 100, 100, 100, 100, 9, 101]).2.2 = true ∧
    (flush (consume ((TabWriter.new.setMinwidth 2).setPadding 2)
        { out := [], failAfter := none }
        [97, 9, 98, 98, 9, 99, 10, 100, 100, 100, 100, 9, 101]).1
      (consume ((TabWriter.new.setMinwidth 2).setPadding 2)
        { out := [], failAfter := none }
        [97, 9, 98, 98, 9, 99, 10, 100, 100, 100, 100, 9, 101]).2.1).2.2 = true ∧
    (flush (consume ((TabWriter.new.setMinwidth 2).setPadding 2)
        { out := [], failAfter := none }
        [97, 9, 98, 98, 9, 99, 10, 100, 100, 100, 100, 9, 101]).1
      (consume ((TabWriter.new.setMinwidth 2).setPadding 2)
        { out := [], failAfter := none }
        [97, 9, 98, 98, 9, 99, 10, 100, 100, 100, 100, 9, 101]).2.1).2.1.out =
      [97, 32, 32, 32, 32, 32, 98, 98, 32, 32, 99, 10,
        100, 100, 100, 100, 32, 32, 101] := by
  refine ⟨by decide, by decide, by decide⟩

/-- C3: `consume` processes its input left to right (splitting the input at
any point and feeding the halves separately is equivalent, with a failed
early flush aborting immediately); on any sink, input containing no newline
byte — tabs and ordinary bytes — always succeeds and leaves the sink
untouched, so an error can only come from a newline; a newline invokes the
full `flush` immediately at that point exactly when the completed line has
one cell, returning that flush's result (error iff its sink write fails) and
succeeding without touching the sink otherwise; and with an infallible sink
`consume` always succeeds. -/
theorem claim3_early_flush_on_single_cell_line :
    (∀ (tw : TabWriter) (s : Sink) (xs ys : List Nat),
      consume tw s (xs ++ ys) =
        (if (consume tw s xs).2.2 then
          consume (consume tw s xs).1 (consume tw s xs).2.1 ys
        else consume tw s xs)) ∧
    (∀ (tw : TabWriter) (s : Sink) (bytes : List Nat), ¬ 10 ∈ bytes →
      (consume tw s bytes).2.1 = s ∧ (consume tw s bytes).2.2 = true) ∧
    (∀ (tw : TabWriter) (s : Sink),
      consume tw s [10] =
        (if (curline (term_curcell tw)).length = 1 then
          flush { term_curcell tw with lines := (term_curcell tw).lines ++ [[]] } s
        else ({ term_curcell tw with
          lines := (term_curcell tw).lines ++ [[]] }, s, true))) ∧
    (∀ (tw : TabWriter) (o bytes : List Nat),
      (consume tw { out := o, failAfter := none } bytes).2.2 = true) := by
  refine ⟨?_, ?_, ?_, ?_⟩
  · intro tw s xs ys
    exact writeAux_append xs tw s [] ys
  · intro tw s bytes h
    exact writeAux_no_newline bytes tw s [] h
  · intro tw s
    exact consume_newline tw s
  · intro tw o bytes
    exact (writeAux_none bytes tw { out := o, failAfter := none } [] rfl).1

/-- C3 witness: a tab and an ordinary byte fed to a sink whose next write
would fail — the call still succeeds and the sink is untouched. -/
theorem claim3_witness :
    ¬ 10 ∈ [97, 9] ∧
    (consume TabWriter.new { out := [], failAfter := some 0 } [97, 9]).2.1 =
      { out := [], failAfter := some 0 } ∧
    (consume TabWriter.new { out := [], failAfter := some 0 } [97, 9]).2.2 = true :=
  ⟨by decide,
    (claim3_early_flush_on_single_cell_line.2.1 TabWriter.new
      { out := [], failAfter := some 0 } [97, 9] (by decide)).1,
    (claim3_early_flush_on_single_cell_line.2.1 TabWriter.new
      { out := [], failAfter := some 0 } [97, 9] (by decide)).2⟩

/-- C4: on a successful finalize the sink receives, for each buffered line in
order (newline-separated, no trailing newline), each cell's raw bytes
followed — unless the cell is the line's last — by
`padding + (assigned_width - cell.width)` spaces, and the assigned width is
always at least the cell's display width. -/
theorem claim4_emission_format (tw : TabWriter) (s : Sink)
    (h : (flush tw s).2.2 = true) :
    (flush tw s).2.1.out = s.out ++
      specEmit (term_pending tw).buf (term_pending tw).padding
        ((term_pending tw).lines.zip
          (cell_widths (term_pending tw).lines (term_pending tw).minwidth)) ∧
    (∀ j col, col + 1 < ((term_pending tw).lines.getD j []).length →
      (((term_pending tw).lines.getD j []).getD col (Cell.new 0)).width ≤
        ((cell_widths (term_pending tw).lines (term_pending tw).minwidth).getD j
          []).getD col 0) := by
  refine ⟨flush_out tw s h, ?_⟩
  intro j col hcol
  rw [cell_widths_getD _ _ j col hcol]
  exact spec_ge_width _ _ j col hcol

/-- C4 witness: the two-line round of the spec's example, flushed into an
infallible sink. -/
theorem claim4_witness :
    (flush (consume TabWriter.new { out := [], failAfter := none }
        [97, 9, 98, 10, 99, 99, 99, 9, 100]).1
      { out := [], failAfter := none }).2.1.out =
      ({ out := [], failAfter := none } : Sink).out ++
      specEmit (term_pending (consume TabWriter.new { out := [], failAfter := none }
          [97, 9, 98, 10, 99, 99, 99, 9, 100]).1).buf
        (term_pending (consume TabWriter.new { out := [], failAfter := none }
          [97, 9, 98, 10, 99, 99, 99, 9, 100]).1).padding
        ((term_pending (consume TabWriter.new { out := [], failAfter := none }
          [97, 9, 98, 10, 99, 99, 99, 9, 100]).1).lines.zip
          (cell_widths (term_pending (consume TabWriter.new
              { out := [], failAfter := none }
              [97, 9, 98, 10, 99, 99, 99, 9, 100]).1).lines
            (term_pending (consume TabWriter.new { out := [], failAfter := none }
              [97, 9, 98, 10, 99, 99, 99, 9, 100]).1).minwidth)) :=
  (claim4_emission_format
    (consume TabWriter.new { out := [], failAfter := none }
      [97, 9, 98, 10, 99, 99, 99, 9, 100]).1
    { out := [], failAfter := none } (by decide)).1

theorem display_columns_none (bytes : List Nat) (h : utf8Decode bytes = none) :
    display_columns bytes = bytes.length := by
  unfold display_columns
  rw [h]

theorem display_columns_some (bytes cps : List Nat) (h : utf8Decode bytes = some cps) :
    display_columns bytes = (cps.map charWidth).sum := by
  unfold display_columns
  rw [h]

/-- C5: every terminated cell of a round built by `consume` carries as its
width the display width of its byte range: its byte length when the range is
not valid UTF-8, and the sum of the per-codepoint display-column
contributions when it is. -/
theorem claim5_cell_width_decode (bytes o : List Nat) (fa : Option Nat) :
    ∀ line ∈ (consume TabWriter.new { out := o, failAfter := fa } bytes).1.lines,
    ∀ c ∈ line,
      c.width = display_columns (listSlice
        (consume TabWriter.new { out := o, failAfter := fa } bytes).1.buf
        c.start (c.start + c.size)) ∧
      (utf8Decode (listSlice
          (consume TabWriter.new { out := o, failAfter := fa } bytes).1.buf
          c.start (c.start + c.size)) = none → c.width = c.size) ∧
      (∀ cps, utf8Decode (listSlice
          (consume TabWriter.new { out := o, failAfter := fa } bytes).1.buf
          c.start (c.start + c.size)) = some cps →
        c.width = (cps.map charWidth).sum) := by
  intro line hline c hc
  have hwf : cellsWF (consume TabWriter.new { out := o, failAfter := fa } bytes).1 :=
    cellsWF_writeAux bytes TabWriter.new { out := o, failAfter := fa } [] cellsWF_new
  obtain ⟨hcur, hcells⟩ := hwf
  have h := hcells line hline c hc
  refine ⟨h.2, ?_, ?_⟩
  · intro hdec
    rw [h.2, display_columns_none _ hdec]
    exact listSlice_length _ c.start c.size h.1
  · intro cps hdec
    rw [h.2, display_columns_some _ cps hdec]

/-- C5 witness: one invalid-UTF-8 cell (`0xFF`) of byte length 1. -/
theorem claim5_witness :
    (Cell.mk 0 1 1).width = display_columns (listSlice
      (consume TabWriter.new { out := [], failAfter := none } [255, 9]).1.buf
      (Cell.mk 0 1 1).start ((Cell.mk 0 1 1).start + (Cell.mk 0 1 1).size)) ∧
    (utf8Decode (listSlice
        (consume TabWriter.new { out := [], failAfter := none } [255, 9]).1.buf
        (Cell.mk 0 1 1).start ((Cell.mk 0 1 1).start + (Cell.mk 0 1 1).size)) = none →
      (Cell.mk 0 1 1).width = (Cell.mk 0 1 1).size) ∧
    (∀ cps, utf8Decode (listSlice
        (consume TabWriter.new { out := [], failAfter := none } [255, 9]).1.buf
        (Cell.mk 0 1 1).start ((Cell.mk 0 1 1).start + (Cell.mk 0 1 1).size)) = some cps →
      (Cell.mk 0 1 1).width = (cps.map charWidth).sum) :=
  claim5_cell_width_decode [255, 9] [] none [Cell.mk 0 1 1] (by decide)
    (Cell.mk 0 1 1) (by decide)

theorem term_pending_buf (tw : TabWriter) : (term_pending tw).buf = tw.buf := by
  unfold term_pending
  by_cases h : 0 < tw.curcell.size
  · rw [if_pos h]
    simp [term_curcell]
  · rw [if_neg h]

/-- C6: a failed sink write during finalize leaves the round's buffered data
intact (backing buffer unchanged, state merely has the pending cell
terminated, nothing reset); a retried finalize on an infallible sink
succeeds, re-emits the round from scratch (the same bytes a finalize from
the original state would emit), and only then resets. -/
theorem claim6_failure_keeps_buffer (tw : TabWriter) (s : Sink) :
    ((flush tw s).2.2 = false →
      (flush tw s).1.buf = tw.buf ∧
      (flush tw s).1 = term_pending tw ∧
      (∀ o : List Nat,
        (flush (flush tw s).1 { out := o, failAfter := none }).2.2 = true ∧
        (flush (flush tw s).1 { out := o, failAfter := none }).1 =
          reset (term_pending tw) ∧
        (flush (flush tw s).1 { out := o, failAfter := none }).2.1.out =
          o ++ (flush tw { out := [], failAfter := none }).2.1.out)) ∧
    ((flush tw s).2.2 = true → (flush tw s).1 = reset (term_pending tw)) := by
  constructor
  · intro hfail
    have hst := flush_false_state tw s hfail
    refine ⟨by rw [hst]; exact term_pending_buf tw, hst, ?_⟩
    intro o
    have hn1 := flush_none (flush tw s).1 { out := o, failAfter := none } rfl
    refine ⟨hn1.1, ?_, ?_⟩
    · rw [flush_true_state _ _ hn1.1, hst, term_pending_idem]
    · rw [flush_out _ _ hn1.1, hst, term_pending_idem]
      have hn2 := flush_none tw { out := [], failAfter := none } rfl
      rw [flush_out tw _ hn2.1]
      simp
  · exact flush_true_state tw s

/-- C6 witness: a round holding "a|b" flushed into a sink that fails its
first write, then retried on an infallible sink. -/
theorem claim6_witness :
    ((flush (consume TabWriter.new { out := [], failAfter := none } [97, 9, 98]).1
        { out := [], failAfter := some 0 }).1.buf =
      ((consume TabWriter.new { out := [], failAfter := none } [97, 9, 98]).1).buf ∧
     (flush (flush (consume TabWriter.new { out := [], failAfter := none }
          [97, 9, 98]).1 { out := [], failAfter := some 0 }).1
        { out := [], failAfter := none }).2.2 = true ∧
     (flush (flush (consume TabWriter.new { out := [], failAfter := none }
          [97, 9, 98]).1 { out := [], failAfter := some 0 }).1
        { out := [], failAfter := none }).2.1.out =
      [] ++ (flush (consume TabWriter.new { out := [], failAfter := none }
          [97, 9, 98]).1 { out := [], failAfter := none }).2.1.out) ∧
    (flush (consume TabWriter.new { out := [], failAfter := none } [97, 9, 98]).1
        { out := [], failAfter := none }).1 =
      reset (term_pending
        (consume TabWriter.new { out := [], failAfter := none } [97, 9, 98]).1) := by
  have h1 := (claim6_failure_keeps_buffer
    (consume TabWriter.new { out := [], failAfter := none } [97, 9, 98]).1
    { out := [], failAfter := some 0 }).1 (by decide)
  have h2 := (claim6_failure_keeps_buffer
    (consume TabWriter.new { out := [], failAfter := none } [97, 9, 98]).1
    { out := [], failAfter := none }).2 (by decide)
  exact ⟨⟨h1.1, (h1.2.2 []).1, (h1.2.2 []).2.2⟩, h2⟩

/-- C7: finalize on a buffer that received no bytes since construction or
the last reset writes nothing to the sink and returns success (the sink is
untouched, not even called). -/
theorem claim7_empty_flush_noop :
    (∀ (tw : TabWriter) (s : Sink), flush (reset tw) s = (reset tw, s, true)) ∧
    (∀ s : Sink, flush TabWriter.new s = (TabWriter.new, s, true)) := by
  constructor
  · intro tw s; rfl
  · intro s; rfl

/-- C8: every contiguous run found by the width computation has length at
least one, and every line's width sequence has exactly one entry per cell
except the trailing cell — so during emission the unique cell index without
an assigned width is the line's last index. -/
theorem claim8_run_positive_and_widths_cover (lines : List (List Cell)) (mw : Nat) :
    (∀ j col, col + 1 < (lines.getD j []).length →
      1 ≤ contigFrom col (lines.drop j)) ∧
    (∀ j, ((cell_widths lines mw).getD j []).length =
      (lines.getD j []).length - 1) ∧
    (∀ j i, i < (lines.getD j []).length →
      (((cell_widths lines mw).getD j []).length ≤ i ↔
        i = (lines.getD j []).length - 1)) := by
  refine ⟨?_, cell_widths_getD_length lines mw, ?_⟩
  · intro j col h
    have hn := nonTrailing_lt_length lines j col h
    cases hL : lines.drop j with
    | nil =>
      have hlen : (lines.drop j).length = lines.length - j := List.length_drop j lines
      rw [hL] at hlen
      simp only [List.length_nil] at hlen
      omega
    | cons a L =>
      rw [contigFrom_cons]
      have h0 := getD_drop' lines j 0
      rw [hL, Nat.add_zero] at h0
      have ha : a = lines.getD j [] := by simpa using h0
      rw [if_pos (by rw [ha]; omega)]
      omega
  · intro j i hi
    rw [cell_widths_getD_length]
    omega

/-- C8 witness: a one-line round with two cells. -/
theorem claim8_witness :
    1 ≤ contigFrom 0 ([[Cell.new 0, Cell.new 0]].drop 0) ∧
    ((cell_widths [[Cell.new 0, Cell.new 0]] 2).getD 0 []).length =
      ([[Cell.new 0, Cell.new 0]].getD 0 []).length - 1 ∧
    (((cell_widths [[Cell.new 0, Cell.new 0]] 2).getD 0 []).length ≤ 1 ↔
      1 = ([[Cell.new 0, Cell.new 0]].getD 0 []).length - 1) := by
  have h := claim8_run_positive_and_widths_cover [[Cell.new 0, Cell.new 0]] 2
  exact ⟨h.1 0 0 (by decide), h.2.1 0, h.2.2 0 1 (by decide)⟩

/-- C9: each step of the width computation appends exactly one width to each
of the `contig` lines of its run (so every non-trailing `(line, column)` pair
is assigned exactly once), the total number of width assignments over the
whole round equals the number of non-trailing cells, and for lines of at
most `m` columns the total is at most `n * m`. -/
theorem claim9_linear_visits (lines : List (List Cell)) (mw m : Nat) :
    (∀ (i col : Nat) (ws : List (List Nat)),
      i + contigFrom col (lines.drop i) ≤ ws.length →
      ((colStep lines mw i col ws).map List.length).sum =
        (ws.map List.length).sum + contigFrom col (lines.drop i)) ∧
    ((cell_widths lines mw).map List.length).sum =
      (lines.map (fun l => l.length - 1)).sum ∧
    ((∀ l ∈ lines, l.length ≤ m) →
      ((cell_widths lines mw).map List.length).sum ≤ lines.length * m) := by
  refine ⟨?_, cell_widths_total lines mw, ?_⟩
  · intro i col ws hle
    exact colStep_sum lines mw i col ws hle
  · intro hbound
    rw [cell_widths_total]
    exact sum_len_sub_one_le m lines hbound

/-- C9 witness: a one-line round with two cells. -/
theorem claim9_witness :
    ((colStep [[Cell.new 0, Cell.new 0]] 2 0 0 [[]]).map List.length).sum =
      (([[]] : List (List Nat)).map List.length).sum +
        contigFrom 0 ([[Cell.new 0, Cell.new 0]].drop 0) ∧
    ((cell_widths [[Cell.new 0, Cell.new 0]] 2).map List.length).sum ≤
      [[Cell.new 0, Cell.new 0]].length * 2 := by
  have h := claim9_linear_visits [[Cell.new 0, Cell.new 0]] 2 2
  exact ⟨h.1 0 0 [[]] (by decide), h.2.2 (by decide)⟩

/-- C10: the in-progress cell is terminated at finalize only when it holds at
least one byte: after consuming `"a\t"` the trailing empty cell is silently
dropped, so finalize emits exactly the same bytes (`"a"`, no padding) as
after consuming `"a"`, even though a tab was consumed. -/
theorem claim10_trailing_tab_dropped :
    (flush (consume TabWriter.new { out := [], failAfter := none } [97, 9]).1
      { out := [], failAfter := none }).2.1.out = [97] ∧
    (flush (consume TabWriter.new { out := [], failAfter := none } [97]).1
      { out := [], failAfter := none }).2.1.out = [97] ∧
    ((consume TabWriter.new { out := [], failAfter := none } [97, 9]).1).curcell.size = 0 ∧
    0 < ((consume TabWriter.new { out := [], failAfter := none } [97]).1).curcell.size := by
  refine ⟨by decide, by decide, by decide, by decide⟩
